import Mathlib

/-!
Verification development for the CSMONE/mlpack sources:
`src/fastlib2/contrib/houyang/svm/opt_cd.h` (dual coordinate descent for
linear L1/L2 SVMs, `CD::Train`) and the `DatasetInfo` implementation
(`MapString` / `UnmapString` / `UnmapValue`).

The C++ code is shallowly embedded: `double` becomes `ℝ` (exact
arithmetic), IEEE `INFINITY` becomes `Option ℝ` (`none` standing for the
infinite value at the places where the source uses it: the upper bounds
and the epoch accumulators), the global `rand()` stream becomes an
explicit stream of natural draws, and the `boost::bimap<std::string,
double>` becomes an association list whose right keys are `Option ℕ`
(`none` standing for the IEEE NaN double, which compares equal to
nothing).
-/

namespace DataInfo

/-- Datatype enum of `dataset_info.hpp`. -/
inductive Datatype where
  | numeric : Datatype
  | categorical : Datatype
deriving DecidableEq

/-- A mapped value: `some k` is the double `k` (the values handed out are
the integers `0, 1, 2, ...`), `none` is the NaN double produced for the
empty string. -/
abbrev MVal := Option ℕ

/-- IEEE double equality on mapped values: NaN (`none`) is equal to
nothing, not even itself. -/
def mvalEq : MVal → MVal → Bool
  | some a, some b => a == b
  | _, _ => false

/-- Contents of `maps[dimension]`: the bimap (as the list of its pairs in
insertion order) together with the `numMappings` counter. -/
structure DimMaps where
  pairs : List (String × MVal)
  numMappings : ℕ

/-- `first.left.count(string)` of the bimap. -/
def leftCount (s : String) (l : List (String × MVal)) : ℕ :=
  (l.filter fun p => p.1 == s).length

/-- `first.right.count(value)` of the bimap (IEEE equality on values). -/
def rightCount (v : MVal) (l : List (String × MVal)) : ℕ :=
  (l.filter fun p => mvalEq p.2 v).length

/-- `first.left.at(string)`: value of the first pair whose left key is the
string. -/
def leftAt (s : String) (l : List (String × MVal)) : Option MVal :=
  (l.find? fun p => p.1 == s).map Prod.snd

/-- `first.right.at(value)`: string of the first pair whose right key is
the value. -/
def rightAt (v : MVal) (l : List (String × MVal)) : Option String :=
  (l.find? fun p => mvalEq p.2 v).map Prod.fst

/-- `boost::bimap::insert`: the pair goes in only when neither the left
key nor the right key is already present. -/
def bimapInsert (s : String) (v : MVal) (l : List (String × MVal)) :
    List (String × MVal) :=
  if leftCount s l = 0 ∧ rightCount v l = 0 then l ++ [(s, v)] else l

/-- The `DatasetInfo` state: the `types` vector and the per-dimension
maps; `maps` is total, mirroring `std::map::operator[]`, which default
constructs a missing entry. -/
structure DatasetInfo where
  types : ℕ → Datatype
  maps : ℕ → DimMaps

/-- `DatasetInfo::MapString` (dataset_info_impl.hpp lines 25-54): empty
strings map to NaN; a new nonempty string is inserted with value
`numMappings` (which is then incremented, whether or not the bimap insert
succeeded); an already-mapped string returns its existing value. -/
def MapString (info : DatasetInfo) (s : String) (d : ℕ) :
    MVal × DatasetInfo :=
  if s = "" then
    (none,
      { info with
        maps := fun k =>
          if k = d then
            { info.maps d with pairs := bimapInsert "" none (info.maps d).pairs }
          else info.maps k })
  else if leftCount s (info.maps d).pairs = 0 then
    let nm := (info.maps d).numMappings
    (some nm,
      { types := if nm = 0 then
          (fun k => if k = d then Datatype.categorical else info.types k)
        else info.types,
        maps := fun k =>
          if k = d then
            { pairs := bimapInsert s (some nm) (info.maps d).pairs,
              numMappings := nm + 1 }
          else info.maps k })
  else
    ((leftAt s (info.maps d).pairs).getD none, info)

/-- `DatasetInfo::UnmapString` (lines 57-71): looks the `size_t` value up
in the right map; throws `std::invalid_argument` when absent. -/
def UnmapString (info : DatasetInfo) (v : ℕ) (d : ℕ) :
    Except String String :=
  match rightAt (some v) (info.maps d).pairs with
  | none => Except.error "UnmapString: value unknown for dimension"
  | some s => Except.ok s

/-- `DatasetInfo::UnmapValue` (lines 74-88): looks the string up in the
left map; throws `std::invalid_argument` when absent. -/
def UnmapValue (info : DatasetInfo) (s : String) (d : ℕ) :
    Except String MVal :=
  if leftCount s (info.maps d).pairs = 0 then
    Except.error "UnmapValue: string unknown for dimension"
  else Except.ok ((leftAt s (info.maps d).pairs).getD none)

/-- Well-formedness of one dimension's bimap, true of every state the
`DatasetInfo` interface can build: every numeric value is below the
counter, nonempty strings never map to NaN, and both key columns are
duplicate-free. -/
def WFdim (m : DimMaps) : Prop :=
  (∀ p ∈ m.pairs, ∀ k, p.2 = some k → k < m.numMappings) ∧
  (∀ p ∈ m.pairs, p.1 ≠ "" → p.2.isSome) ∧
  (m.pairs.map Prod.fst).Nodup ∧
  (m.pairs.filterMap Prod.snd).Nodup

instance (m : DimMaps) : Decidable (WFdim m) := by
  unfold WFdim; infer_instance

end DataInfo

namespace OptCD

open Finset

/-- `CD_ALPHA_ZERO` (opt_cd.h line 27): the `1.0e-7` threshold read as an
exact real. -/
noncomputable def CD_ALPHA_ZERO : ℝ := 1 / 10 ^ 7

/-- The `1.0e-12` projected-gradient threshold of line 379. -/
noncomputable def PGRAD_EPS : ℝ := 1 / 10 ^ 12

/-- The dataset handed to `Train`: the dense matrix (row, column) with
its row and column counts.  Each column is one sample; the last row holds
the label. -/
structure SVMDataset where
  mat : ℕ → ℕ → ℝ
  nRows : ℕ
  nCols : ℕ

/-- The parameter bundle of `CD::InitPara` for `SVM_C`:
`Cp, Cn, regularization, n_epochs, n_iter, accuracy`. -/
structure CDParams where
  Cp : ℝ
  Cn : ℝ
  regularization : ℤ
  nEpochs : ℕ
  nIter : ℕ
  accuracy : ℝ

/-- Swap target of shuffle step `i`: the source draws `j = rand() %
n_data_` (line 310), so the target ranges over all of `[0, n)`. -/
def shuffleTarget (n : ℕ) (draws : ℕ → ℕ) (i : ℕ) : ℕ :=
  draws i % n

/-- `swap(a[i], a[j])` on the array viewed as a function. -/
def swapAt (a : ℕ → ℕ) (i j : ℕ) : ℕ → ℕ :=
  fun x => if x = i then a j else if x = j then a i else a x

/-- The first `k` steps of the shuffle loop (lines 309-312) applied to the
identity array `old_from_new[i] = i` from lines 306-308. -/
def shuffleLoop (n : ℕ) (draws : ℕ → ℕ) : ℕ → (ℕ → ℕ)
  | 0 => fun x => x
  | k + 1 => swapAt (shuffleLoop n draws k) k (shuffleTarget n draws k)

/-- `old_from_new` as it stands when the inner loop begins: all `n`
shuffle steps done. -/
def oldFromNew (n : ℕ) (draws : ℕ → ℕ) : ℕ → ℕ :=
  shuffleLoop n draws n

/-- Fisher-Yates style shuffle as the spec words it: position `i` is
swapped with the uniformly random later-or-equal position
`i + draw_i % (n - i)`.  Modelled from the spec, for comparison with the
source's `oldFromNew`. -/
def fisherYatesLoop (n : ℕ) (draws : ℕ → ℕ) : ℕ → (ℕ → ℕ)
  | 0 => fun x => x
  | k + 1 => swapAt (fisherYatesLoop n draws k) k (k + draws k % (n - k))

/-- The spec's later-or-equal shuffle, run over all `n` positions. -/
def fisherYatesShuffle (n : ℕ) (draws : ℕ → ℕ) : ℕ → ℕ :=
  fisherYatesLoop n draws n

noncomputable section

open scoped Classical

/-- Label extraction of `LearnersInit_` (line 224):
`y[i] = datamatrix_.get(n_rows - 1, i) > 0 ? 1 : -1`. -/
def labelOf (ds : SVMDataset) (i : ℕ) : ℤ :=
  if 0 < ds.mat (ds.nRows - 1) i then 1 else -1

/-- `diag_p` (lines 263, 272): `0.5 / Cp`, overwritten with `0` for
L1-SVM (`regularization_ == 1`). -/
def diagPOf (P : CDParams) : ℝ :=
  if P.regularization = 1 then 0 else 0.5 / P.Cp

/-- `diag_n` (lines 264, 273). -/
def diagNOf (P : CDParams) : ℝ :=
  if P.regularization = 1 then 0 else 0.5 / P.Cn

/-- `upper_bound_p` (lines 265, 274): `INFINITY` (`none`), overwritten
with `Cp` for L1-SVM. -/
def ubPOf (P : CDParams) : Option ℝ :=
  if P.regularization = 1 then some P.Cp else none

/-- `upper_bound_n` (lines 266, 275). -/
def ubNOf (P : CDParams) : Option ℝ :=
  if P.regularization = 1 then some P.Cn else none

/-- `QD[i]` exactly as lines 278-289 compute it: the class offset, plus
the sum of `sqrt(datamatrix_.get(j, i))` over the feature rows, plus 1.
The source applies `sqrt` to each feature value, not the square. -/
def qdOf (P : CDParams) (ds : SVMDataset) (i : ℕ) : ℝ :=
  (if 0 < labelOf ds i then diagPOf P else diagNOf P)
    + ∑ j ∈ Finset.range (ds.nRows - 1), Real.sqrt (ds.mat j i) + 1

/-- `QD[i]` as the spec and claim C2 word it: the class offset, plus the
sum of the squared feature values, plus 1.  Modelled from the spec, for
comparison with the source's `qdOf`. -/
def qdSpec (P : CDParams) (ds : SVMDataset) (i : ℕ) : ℝ :=
  (if 0 < labelOf ds i then diagPOf P else diagNOf P)
    + ∑ j ∈ Finset.range (ds.nRows - 1), ds.mat j i ^ 2 + 1

/-- The learner-independent context `Train` derives before the epoch loop
(lines 249-296): counts, labels, diagonal offsets, upper bounds, `QD`,
and the effective iteration and epoch counts.  Lines 291-296: when
`n_epochs_ > 0` the iteration count is overwritten with `n_data_`;
otherwise the supplied `n_iter_` is kept and a single loop pass is
scheduled (`n_epochs_ = 1`). -/
structure CDContext where
  n : ℕ
  F : ℕ
  y : ℕ → ℤ
  diagP : ℝ
  diagN : ℝ
  ubP : Option ℝ
  ubN : Option ℝ
  QD : ℕ → ℝ
  nIterEff : ℕ
  nEpochsEff : ℕ
  accuracy : ℝ

/-- Build the context from the parameters and the dataset. -/
def mkContext (P : CDParams) (ds : SVMDataset) : CDContext where
  n := ds.nCols
  F := ds.nRows - 1
  y := labelOf ds
  diagP := diagPOf P
  diagN := diagNOf P
  ubP := ubPOf P
  ubN := ubNOf P
  QD := qdOf P ds
  nIterEff := if 0 < P.nEpochs then ds.nCols else P.nIter
  nEpochsEff := if 0 < P.nEpochs then P.nEpochs else 1
  accuracy := P.accuracy

/-- The mutable training state: the aliased data matrix `datamatrix_`,
the dual variables `alpha_` and the augmented weight vector `w_`. -/
structure CDState where
  mat : ℕ → ℕ → ℝ
  alpha : ℕ → ℝ
  w : ℕ → ℝ

/-- State after `LearnersInit_` (lines 210-225): `alpha_` and `w_`
zero-filled, `datamatrix_` aliasing the input matrix.  Modelled from the
spec (section 4.1, zero-filled allocation): the fastlib `Vector::Init` /
`SetZero` bodies are not among the sources, and the duplicated
`alpha_.Init` at line 218 is modelled as leaving the zero fill in
place. -/
def initState (ds : SVMDataset) : CDState where
  mat := ds.mat
  alpha := fun _ => 0
  w := fun _ => 0

/-- Line 322-324: `datamatrix_.MakeColumnVector(wi, &xi)` makes `xi` an
alias of column `wi` of the matrix (fastlib vectors alias, they do not
copy; the spec treats the store as supplying raw feature columns), so
`xi[n_features_] = 1.0` writes `1` into the label-row entry of the
visited column. -/
def writeBias (F : ℕ) (m : ℕ → ℕ → ℝ) (wi : ℕ) : ℕ → ℕ → ℝ :=
  fun r c => if r = F ∧ c = wi then 1 else m r c

/-- The upper bound `C` selected at lines 333-340: `upper_bound_p` for
positive samples, `upper_bound_n` otherwise. -/
def ubOf (C : CDContext) (wi : ℕ) : Option ℝ :=
  if 0 < C.y wi then C.ubP else C.ubN

/-- The curvature-corrected gradient of lines 327-340:
`G = (Σ_j w[j]·xi[j])·yi - 1 + alpha[wi]·diag`, with `xi` the aliased
column after the bias write. -/
def gradOf (C : CDContext) (st : CDState) (wi : ℕ) : ℝ :=
  (∑ j ∈ Finset.range (C.F + 1), st.w j * writeBias C.F st.mat wi j wi)
      * (C.y wi : ℝ) - 1
    + st.alpha wi * (if 0 < C.y wi then C.diagP else C.diagN)

/-- `(C - alpha) <= CD_ALPHA_ZERO` of line 369, with `C = INFINITY`
(`none`) never within the threshold. -/
def atUpper (ub : Option ℝ) (a : ℝ) : Prop :=
  match ub with
  | none => False
  | some c => c - a ≤ CD_ALPHA_ZERO

/-- The projected gradient of lines 366-374. -/
def pgradOf (C : CDContext) (st : CDState) (wi : ℕ) : ℝ :=
  if st.alpha wi ≤ CD_ALPHA_ZERO then min (gradOf C st wi) 0
  else if atUpper (ubOf C wi) (st.alpha wi) then max (gradOf C st wi) 0
  else gradOf C st wi

/-- `min(max(alpha - G/QD, 0.0), C)` of line 381, with `min(x, INFINITY)
= x`. -/
def clipAlpha (ub : Option ℝ) (x : ℝ) : ℝ :=
  match ub with
  | none => max x 0
  | some c => min (max x 0) c

/-- One full body of the inner loop (lines 320-386) at iteration `t`:
select the permuted sample, write the bias `1` through the aliased
column, compute the projected gradient, and when its magnitude exceeds
`1.0e-12` take the clipped closed-form step on `alpha[wi]` and fold the
change into `w`.  Returns the new state and the projected gradient. -/
def coordStep (C : CDContext) (perm : ℕ → ℕ) (st : CDState) (t : ℕ) :
    CDState × ℝ :=
  let wi := perm (t % C.n)
  let m2 := writeBias C.F st.mat wi
  let st1 : CDState := { st with mat := m2 }
  let pg := pgradOf C st1 wi
  if PGRAD_EPS < |pg| then
    let aNew := clipAlpha (ubOf C wi) (st1.alpha wi - gradOf C st1 wi / C.QD wi)
    let diff := (aNew - st1.alpha wi) * (C.y wi : ℝ)
    ({ st1 with
        alpha := Function.update st1.alpha wi aNew,
        w := fun j => if j < C.F + 1 then st1.w j + diff * m2 j wi else st1.w j },
      pg)
  else (st1, pg)

/-- `pgrad_max_new = max(pgrad_max_new, pgrad)` with the `-INFINITY`
start (`none`). -/
def accMax : Option ℝ → ℝ → Option ℝ
  | none, x => some x
  | some m, x => some (max m x)

/-- `pgrad_min_new = min(pgrad_min_new, pgrad)` with the `+INFINITY`
start (`none`). -/
def accMin : Option ℝ → ℝ → Option ℝ
  | none, x => some x
  | some m, x => some (min m x)

/-- Result of one epoch's inner loop: the state, the two accumulators,
and (as instrumentation) the trace of `(sample index, pgrad)` pairs of
the coordinate-update steps in order. -/
structure EpochResult where
  st : CDState
  pmax : Option ℝ
  pmin : Option ℝ
  trace : List (ℕ × ℝ)

/-- The first `k` iterations of the inner loop of lines 317-387, starting
from the reset accumulators of lines 314-315. -/
def innerLoop (C : CDContext) (perm : ℕ → ℕ) (st0 : CDState) :
    ℕ → EpochResult
  | 0 => ⟨st0, none, none, []⟩
  | k + 1 =>
    let r := innerLoop C perm st0 k
    let s := coordStep C perm r.st k
    ⟨s.1, accMax r.pmax s.2, accMin r.pmin s.2,
      r.trace ++ [(perm (k % C.n), s.2)]⟩

/-- One epoch: shuffle `old_from_new` afresh from this epoch's draws and
run the inner loop; `for (t=0; t <= n_iter_; t++)` executes
`n_iter_ + 1` iterations. -/
def runEpoch (C : CDContext) (draws : ℕ → ℕ) (st : CDState) : EpochResult :=
  innerLoop C (oldFromNew C.n draws) st (C.nIterEff + 1)

/-- The epoch-end optimality test of line 391,
`pgrad_max_new - pgrad_min_new <= accuracy_`, on the `Option`-modelled
accumulators: a still-infinite accumulator makes the IEEE difference
`-INFINITY`, which passes the test. -/
def gapConverged (pmax pmin : Option ℝ) (acc : ℝ) : Prop :=
  match pmax, pmin with
  | some M, some m => M - m ≤ acc
  | _, _ => True

/-- The outer `while` loop of lines 302-411, with `fuel` the number of
passes still allowed (`Train` supplies `nEpochsEff`, and the loop
breaks no later than `epo` reaching `nEpochsEff`, so the fuel is never
exhausted).  Returns the final state, `stopping_condition` (1 =
converged, 2 = epoch limit) and the number of epochs executed.  The
carried `pgrad_max_old` / `pgrad_min_old` of lines 397-404 feed only the
commented-out shrinking heuristic and are omitted: nothing reads them. -/
def outerLoop (C : CDContext) (draws : ℕ → ℕ → ℕ) :
    ℕ → ℕ → CDState → CDState × ℕ × ℕ
  | 0, epo, st => (st, 0, epo)
  | fuel + 1, epo, st =>
    let r := runEpoch C (draws epo) st
    if gapConverged r.pmax r.pmin C.accuracy then (r.st, 1, epo + 1)
    else if C.nEpochsEff ≤ epo + 1 then (r.st, 2, epo + 1)
    else outerLoop C draws fuel (epo + 1) r.st

/-- `CD::Train` for `SVM_C` (lines 242-411): derive the context,
initialize the learners, and run the epoch loop. -/
def cdTrain (P : CDParams) (ds : SVMDataset) (draws : ℕ → ℕ → ℕ) :
    CDState × ℕ × ℕ :=
  let C := mkContext P ds
  outerLoop C draws C.nEpochsEff 0 (initState ds)

/-- The projected gradient as the spec words it (section 4.4, step 3),
with `ε = 1e-7`: for comparison with the source's `pgradOf`. -/
def specPgrad (G a : ℝ) (ub : Option ℝ) : ℝ :=
  if a ≤ 1 / 10 ^ 7 then min G 0
  else if ∃ c, ub = some c ∧ c - a ≤ 1 / 10 ^ 7 then max G 0
  else G

/-- The bound invariant of claim C5: every dual variable is nonnegative,
and below its class bound whenever that bound is finite. -/
def BoundInv (C : CDContext) (st : CDState) : Prop :=
  ∀ i, 0 ≤ st.alpha i ∧ ∀ c, ubOf C i = some c → st.alpha i ≤ c

/-- The weight-consistency invariant of claim C6 over the original input
matrix `mat0`: the feature rows of the aliased matrix are untouched, and
the augmented weight vector is the alpha-weighted sum of the augmented
sample columns `[x_i, 1]`. -/
def WInv (C : CDContext) (mat0 : ℕ → ℕ → ℝ) (st : CDState) : Prop :=
  (∀ r c, r ≠ C.F → st.mat r c = mat0 r c) ∧
  ∀ j, j < C.F + 1 →
    st.w j = ∑ i ∈ Finset.range C.n,
      st.alpha i * (C.y i : ℝ) * (if j = C.F then 1 else mat0 j i)

/-- Concrete 2-by-1 dataset: one sample with feature `1` and label `-1`. -/
def dsLbl : SVMDataset := ⟨fun r _ => if r = 0 then 1 else -1, 2, 1⟩

/-- Concrete 2-by-1 dataset: one sample with feature `4` and label `1`. -/
def dsQD : SVMDataset := ⟨fun r _ => if r = 0 then 4 else 1, 2, 1⟩

/-- Concrete 2-by-1 dataset: one sample with feature `1` and label `1`. -/
def dsOne : SVMDataset := ⟨fun _ _ => 1, 2, 1⟩

/-- Concrete 2-by-2 all-ones dataset: two samples. -/
def dsTwo : SVMDataset := ⟨fun _ _ => 1, 2, 2⟩

/-- L1 parameters `Cp = Cn = 1`, one epoch, no explicit iteration count,
accuracy `0`. -/
def pL1 : CDParams := ⟨1, 1, 1, 1, 0, 0⟩

/-- L1 parameters with both `maxEpochs = 2` and an explicit
`maxIterationsPerEpoch = 5` supplied. -/
def pIter : CDParams := ⟨1, 1, 1, 2, 5, 0⟩

/-- L1 parameters with `maxEpochs = 3` and the unreachable accuracy
`-1`. -/
def pEpo : CDParams := ⟨1, 1, 1, 3, 0, -1⟩

/-- The all-zero random stream. -/
def zeroDraws : ℕ → ℕ → ℕ := fun _ _ => 0

end

/-- The empty `DatasetInfo` state. -/
def infoEmpty : DataInfo.DatasetInfo :=
  ⟨fun _ => DataInfo.Datatype.numeric, fun _ => ⟨[], 0⟩⟩

open scoped Classical

theorem swapAt_eq_comp (a : ℕ → ℕ) (i j : ℕ) :
    swapAt a i j = fun x => a (Equiv.swap i j x) := by
  funext x
  simp only [swapAt, Equiv.swap_apply_def]
  split_ifs <;> rfl

theorem swap_lt {n i j : ℕ} (hi : i < n) (hj : j < n) :
    ∀ x, x < n → (Equiv.swap i j x : ℕ) < n := by
  intro x hx
  rw [Equiv.swap_apply_def]
  split_ifs <;> assumption

theorem swap_bijOn {n i j : ℕ} (hi : i < n) (hj : j < n) :
    Set.BijOn (fun x => (Equiv.swap i j x : ℕ)) (Set.Iio n) (Set.Iio n) := by
  refine ⟨fun x hx => swap_lt hi hj x hx, ?_, ?_⟩
  · exact (Equiv.injective _).injOn
  · intro y hy
    exact ⟨Equiv.swap i j y, swap_lt hi hj y hy, Equiv.swap_apply_self i j y⟩

theorem shuffleLoop_bijOn {n : ℕ} (draws : ℕ → ℕ) (hn : 0 < n) :
    ∀ k, k ≤ n → Set.BijOn (shuffleLoop n draws k) (Set.Iio n) (Set.Iio n)
  | 0, _ => by
    simpa [shuffleLoop] using Set.bijOn_id (Set.Iio n)
  | k + 1, hk => by
    have hk' : k < n := hk
    have hprev := shuffleLoop_bijOn draws hn k (Nat.le_of_lt hk')
    rw [shuffleLoop, swapAt_eq_comp]
    exact hprev.comp (swap_bijOn hk' (Nat.mod_lt _ hn))

/-- The source's shuffle always yields a bijection of `[0, n)`. -/
theorem oldFromNew_bijOn {n : ℕ} (draws : ℕ → ℕ) (hn : 0 < n) :
    Set.BijOn (oldFromNew n draws) (Set.Iio n) (Set.Iio n) :=
  shuffleLoop_bijOn draws hn n le_rfl

theorem shuffleLoop_ge {n : ℕ} (draws : ℕ → ℕ) :
    ∀ k, k ≤ n → ∀ x, n ≤ x → shuffleLoop n draws k x = x
  | 0, _, x, _ => rfl
  | k + 1, hk, x, hx => by
    have hk' : k < n := hk
    have htgt : shuffleTarget n draws k < n :=
      Nat.mod_lt _ (Nat.lt_of_le_of_lt (Nat.zero_le k) hk')
    rw [shuffleLoop, swapAt]
    have hxk : x ≠ k := by omega
    have hxt : x ≠ shuffleTarget n draws k := by omega
    rw [if_neg hxk, if_neg hxt]
    exact shuffleLoop_ge draws k (Nat.le_of_lt hk') x hx

theorem oldFromNew_ge {n : ℕ} (draws : ℕ → ℕ) (x : ℕ) (hx : n ≤ x) :
    oldFromNew n draws x = x :=
  shuffleLoop_ge draws n le_rfl x hx

/-- The permuted sample index of iteration `t` is a valid sample. -/
theorem oldFromNew_mod_lt {n : ℕ} (draws : ℕ → ℕ) (hn : 0 < n) (t : ℕ) :
    oldFromNew n draws (t % n) < n :=
  (oldFromNew_bijOn draws hn).mapsTo (Set.mem_Iio.mpr (Nat.mod_lt _ hn))

theorem coordStep_mat (C : CDContext) (perm : ℕ → ℕ) (st : CDState) (t : ℕ) :
    (coordStep C perm st t).1.mat = writeBias C.F st.mat (perm (t % C.n)) := by
  dsimp only [coordStep]
  split <;> rfl

theorem coordStep_pg (C : CDContext) (perm : ℕ → ℕ) (st : CDState) (t : ℕ) :
    (coordStep C perm st t).2 =
      pgradOf C ⟨writeBias C.F st.mat (perm (t % C.n)), st.alpha, st.w⟩
        (perm (t % C.n)) := by
  dsimp only [coordStep]
  split <;> rfl

theorem coordStep_noop (C : CDContext) (perm : ℕ → ℕ) (st : CDState) (t : ℕ)
    (h : ¬ PGRAD_EPS <
      |pgradOf C ⟨writeBias C.F st.mat (perm (t % C.n)), st.alpha, st.w⟩
        (perm (t % C.n))|) :
    (coordStep C perm st t).1.alpha = st.alpha ∧
      (coordStep C perm st t).1.w = st.w := by
  dsimp only [coordStep]
  rw [if_neg h]
  exact ⟨rfl, rfl⟩

theorem innerLoop_st_succ (C : CDContext) (perm : ℕ → ℕ) (st0 : CDState)
    (k : ℕ) :
    (innerLoop C perm st0 (k + 1)).st =
      (coordStep C perm (innerLoop C perm st0 k).st k).1 :=
  rfl

theorem innerLoop_trace_length (C : CDContext) (perm : ℕ → ℕ)
    (st0 : CDState) : ∀ k, (innerLoop C perm st0 k).trace.length = k
  | 0 => rfl
  | k + 1 => by
    show ((innerLoop C perm st0 k).trace ++ _).length = k + 1
    rw [List.length_append, innerLoop_trace_length C perm st0 k]
    rfl

theorem innerLoop_trace_fst (C : CDContext) (perm : ℕ → ℕ) (st0 : CDState) :
    ∀ k i, i < k →
      ((innerLoop C perm st0 k).trace.getD i (0, 0)).1 = perm (i % C.n)
  | k + 1, i, hi => by
    show ((_ ++ [(perm (k % C.n), _)]).getD i (0, 0)).1 = _
    rcases Nat.lt_or_ge i k with hik | hik
    · rw [List.getD_append _ _ _ _
        (by rw [innerLoop_trace_length]; exact hik)]
      exact innerLoop_trace_fst C perm st0 k i hik
    · have hik' : i = k := by omega
      rw [List.getD_append_right _ _ _ _
        (by rw [innerLoop_trace_length]; exact hik)]
      rw [innerLoop_trace_length]
      subst hik'
      simp

theorem max?_append (l : List ℝ) (x : ℝ) :
    (l ++ [x]).max? =
      some (match l.max? with | none => x | some m => max m x) := by
  cases l with
  | nil => rfl
  | cons a as =>
    show (a :: (as ++ [x])).max? = _
    simp only [List.max?, List.foldl_append, List.foldl]

theorem min?_append (l : List ℝ) (x : ℝ) :
    (l ++ [x]).min? =
      some (match l.min? with | none => x | some m => min m x) := by
  cases l with
  | nil => rfl
  | cons a as =>
    show (a :: (as ++ [x])).min? = _
    simp only [List.min?, List.foldl_append, List.foldl]

theorem innerLoop_pmax (C : CDContext) (perm : ℕ → ℕ) (st0 : CDState) :
    ∀ k, (innerLoop C perm st0 k).pmax =
      ((innerLoop C perm st0 k).trace.map Prod.snd).max?
  | 0 => rfl
  | k + 1 => by
    have h1 : (innerLoop C perm st0 (k + 1)).pmax =
        accMax (innerLoop C perm st0 k).pmax
          (coordStep C perm (innerLoop C perm st0 k).st k).2 := rfl
    have h2 : (innerLoop C perm st0 (k + 1)).trace =
        (innerLoop C perm st0 k).trace ++
          [(perm (k % C.n),
            (coordStep C perm (innerLoop C perm st0 k).st k).2)] := rfl
    rw [h1, h2, List.map_append, List.map_singleton, max?_append,
      ← innerLoop_pmax C perm st0 k]
    cases (innerLoop C perm st0 k).pmax <;> rfl

theorem innerLoop_pmin (C : CDContext) (perm : ℕ → ℕ) (st0 : CDState) :
    ∀ k, (innerLoop C perm st0 k).pmin =
      ((innerLoop C perm st0 k).trace.map Prod.snd).min?
  | 0 => rfl
  | k + 1 => by
    have h1 : (innerLoop C perm st0 (k + 1)).pmin =
        accMin (innerLoop C perm st0 k).pmin
          (coordStep C perm (innerLoop C perm st0 k).st k).2 := rfl
    have h2 : (innerLoop C perm st0 (k + 1)).trace =
        (innerLoop C perm st0 k).trace ++
          [(perm (k % C.n),
            (coordStep C perm (innerLoop C perm st0 k).st k).2)] := rfl
    rw [h1, h2, List.map_append, List.map_singleton, min?_append,
      ← innerLoop_pmin C perm st0 k]
    cases (innerLoop C perm st0 k).pmin <;> rfl

theorem innerLoop_gap (C : CDContext) (perm : ℕ → ℕ) (st0 : CDState) :
    ∀ k, ∃ M m, (innerLoop C perm st0 (k + 1)).pmax = some M ∧
      (innerLoop C perm st0 (k + 1)).pmin = some m ∧ m ≤ M
  | 0 => ⟨(innerLoop C perm st0 1).trace.getD 0 (0, 0) |>.2, _, rfl, rfl, le_refl _⟩
  | k + 1 => by
    obtain ⟨M, m, hM, hm, hle⟩ := innerLoop_gap C perm st0 k
    refine ⟨max M (coordStep C perm (innerLoop C perm st0 (k + 1)).st (k + 1)).2,
      min m (coordStep C perm (innerLoop C perm st0 (k + 1)).st (k + 1)).2,
      ?_, ?_, ?_⟩
    · show accMax (innerLoop C perm st0 (k + 1)).pmax _ = _
      rw [hM]
      rfl
    · show accMin (innerLoop C perm st0 (k + 1)).pmin _ = _
      rw [hm]
      rfl
    · exact le_trans (min_le_left _ _) (le_trans hle (le_max_left _ _))

/-- Each epoch's accumulators hold real values with `pmin ≤ pmax`:
the epoch gap is nonnegative. -/
theorem runEpoch_gap (C : CDContext) (draws : ℕ → ℕ) (st : CDState) :
    ∃ M m, (runEpoch C draws st).pmax = some M ∧
      (runEpoch C draws st).pmin = some m ∧ m ≤ M :=
  innerLoop_gap C (oldFromNew C.n draws) st C.nIterEff

theorem innerLoop_pred (C : CDContext) (perm : ℕ → ℕ) (st0 : CDState)
    (Q : CDState → Prop)
    (hQ : ∀ st t, Q st → Q (coordStep C perm st t).1) (h0 : Q st0) :
    ∀ k, Q (innerLoop C perm st0 k).st
  | 0 => h0
  | k + 1 => hQ _ _ (innerLoop_pred C perm st0 Q hQ h0 k)

theorem outerLoop_succ (C : CDContext) (draws : ℕ → ℕ → ℕ) (fuel epo : ℕ)
    (st : CDState) :
    outerLoop C draws (fuel + 1) epo st =
      if gapConverged (runEpoch C (draws epo) st).pmax
          (runEpoch C (draws epo) st).pmin C.accuracy then
        ((runEpoch C (draws epo) st).st, 1, epo + 1)
      else if C.nEpochsEff ≤ epo + 1 then
        ((runEpoch C (draws epo) st).st, 2, epo + 1)
      else outerLoop C draws fuel (epo + 1) (runEpoch C (draws epo) st).st :=
  rfl

theorem outerLoop_pred (C : CDContext) (draws : ℕ → ℕ → ℕ)
    (Q : CDState → Prop)
    (hQ : ∀ e st t, Q st → Q (coordStep C (oldFromNew C.n (draws e)) st t).1) :
    ∀ fuel epo st, Q st → Q (outerLoop C draws fuel epo st).1
  | 0, _, _, h0 => h0
  | fuel + 1, epo, st, h0 => by
    have hep : Q (runEpoch C (draws epo) st).st :=
      innerLoop_pred C _ st Q (hQ epo) h0 _
    rw [outerLoop_succ]
    split_ifs with h1 h2
    · exact hep
    · exact hep
    · exact outerLoop_pred C draws Q hQ fuel (epo + 1) _ hep

theorem outerLoop_cond (C : CDContext) (draws : ℕ → ℕ → ℕ) :
    ∀ fuel epo st, 0 < fuel → epo + fuel = C.nEpochsEff →
      ((outerLoop C draws fuel epo st).2.1 = 1 ∨
        (outerLoop C draws fuel epo st).2.1 = 2) ∧
      (outerLoop C draws fuel epo st).2.2 ≤ C.nEpochsEff
  | fuel + 1, epo, st, _, hinv => by
    rw [outerLoop_succ]
    split_ifs with h1 h2
    · refine ⟨Or.inl rfl, ?_⟩
      show epo + 1 ≤ C.nEpochsEff
      omega
    · refine ⟨Or.inr rfl, ?_⟩
      show epo + 1 ≤ C.nEpochsEff
      omega
    · exact outerLoop_cond C draws fuel (epo + 1) _ (by omega) (by omega)

theorem outerLoop_noconv (C : CDContext) (draws : ℕ → ℕ → ℕ)
    (hgap : ∀ e st, ¬ gapConverged (runEpoch C (draws e) st).pmax
      (runEpoch C (draws e) st).pmin C.accuracy) :
    ∀ fuel epo st, 0 < fuel → epo + fuel = C.nEpochsEff →
      (outerLoop C draws fuel epo st).2.1 = 2 ∧
      (outerLoop C draws fuel epo st).2.2 = C.nEpochsEff
  | fuel + 1, epo, st, _, hinv => by
    rw [outerLoop_succ, if_neg (hgap epo st)]
    split_ifs with h2
    · refine ⟨rfl, ?_⟩
      show epo + 1 = C.nEpochsEff
      omega
    · exact outerLoop_noconv C draws hgap fuel (epo + 1) _ (by omega) (by omega)

theorem ubOf_mem (P : CDParams) (ds : SVMDataset) (i : ℕ) (c : ℝ)
    (h : ubOf (mkContext P ds) i = some c) : c = P.Cp ∨ c = P.Cn := by
  unfold ubOf at h
  have hp : (mkContext P ds).ubP = ubPOf P := rfl
  have hq : (mkContext P ds).ubN = ubNOf P := rfl
  rw [hp, hq] at h
  unfold ubPOf ubNOf at h
  split_ifs at h <;>
    first
    | exact Or.inl (Option.some_inj.mp h).symm
    | exact Or.inr (Option.some_inj.mp h).symm

theorem clipAlpha_nonneg (ub : Option ℝ) (x : ℝ)
    (h : ∀ c, ub = some c → 0 ≤ c) : 0 ≤ clipAlpha ub x := by
  cases ub with
  | none => exact le_max_right x 0
  | some c => exact le_min (le_max_right x 0) (h c rfl)

theorem clipAlpha_le (c : ℝ) (x : ℝ) : clipAlpha (some c) x ≤ c :=
  min_le_right _ _

theorem sum_update_shift (n : ℕ) (f h : ℕ → ℝ) (wi : ℕ) (hwi : wi < n)
    (a : ℝ) :
    ∑ i ∈ Finset.range n, Function.update f wi a i * h i =
      (∑ i ∈ Finset.range n, f i * h i) + (a - f wi) * h wi := by
  have hmem : wi ∈ Finset.range n := Finset.mem_range.mpr hwi
  have hcong : ∀ i ∈ Finset.range n,
      Function.update f wi a i * h i =
        Function.update (fun j => f j * h j) wi (a * h wi) i := by
    intro i _
    rcases eq_or_ne i wi with rfl | hne
    · rw [Function.update_same, Function.update_same]
    · rw [Function.update_noteq hne, Function.update_noteq hne]
  rw [Finset.sum_congr rfl hcong, Finset.sum_update_of_mem hmem,
    Finset.sum_eq_sum_diff_singleton_add hmem (fun j => f j * h j)]
  ring

theorem wsum_step (n F : ℕ) (y : ℕ → ℤ) (mat0 : ℕ → ℕ → ℝ) (f : ℕ → ℝ)
    (wi : ℕ) (hwi : wi < n) (a : ℝ) (j : ℕ) :
    (∑ i ∈ Finset.range n, f i * (y i : ℝ) * (if j = F then 1 else mat0 j i))
        + (a - f wi) * (y wi : ℝ) * (if j = F then 1 else mat0 j wi) =
      ∑ i ∈ Finset.range n,
        Function.update f wi a i * (y i : ℝ) *
          (if j = F then 1 else mat0 j i) := by
  have h1 : ∀ g : ℕ → ℝ, ∀ i ∈ Finset.range n,
      g i * (y i : ℝ) * (if j = F then 1 else mat0 j i) =
        g i * ((y i : ℝ) * (if j = F then 1 else mat0 j i)) :=
    fun g i _ => mul_assoc _ _ _
  rw [Finset.sum_congr rfl (h1 f),
    Finset.sum_congr rfl (h1 (Function.update f wi a)),
    sum_update_shift n f _ wi hwi a]
  ring

/-- One coordinate-update step preserves the weight-consistency
invariant, provided the visited sample index is valid. -/
theorem coordStep_winv (C : CDContext) (mat0 : ℕ → ℕ → ℝ) (perm : ℕ → ℕ)
    (st : CDState) (t : ℕ) (hw : perm (t % C.n) < C.n)
    (hB : WInv C mat0 st) : WInv C mat0 (coordStep C perm st t).1 := by
  obtain ⟨hmat, hwsum⟩ := hB
  have hbias : ∀ r c, r ≠ C.F →
      writeBias C.F st.mat (perm (t % C.n)) r c = mat0 r c := by
    intro r c hr
    unfold writeBias
    rw [if_neg (by tauto)]
    exact hmat r c hr
  have hm2 : ∀ j, j < C.F + 1 →
      writeBias C.F st.mat (perm (t % C.n)) j (perm (t % C.n)) =
        (if j = C.F then 1 else mat0 j (perm (t % C.n))) := by
    intro j _
    unfold writeBias
    rcases eq_or_ne j C.F with rfl | hne
    · rw [if_pos ⟨rfl, rfl⟩, if_pos rfl]
    · rw [if_neg (by tauto), if_neg hne]
      exact hmat j _ hne
  dsimp only [coordStep]
  split
  · refine ⟨hbias, ?_⟩
    intro j hj
    show (if j < C.F + 1 then st.w j + _ else st.w j) = _
    rw [if_pos hj, hwsum j hj, hm2 j hj]
    exact wsum_step C.n C.F C.y mat0 st.alpha (perm (t % C.n)) hw _ j
  · exact ⟨hbias, hwsum⟩

/-- Claim C5: with `Cp > 0` and `Cn > 0`, every dual variable satisfies
`0 <= alpha[i]`, and `alpha[i] <= C_i` whenever the class bound is
finite (L1 mode; in L2 mode the bound is infinite and only the lower
bound applies) - after the zero initialization, after every
coordinate-update step, and at the end of training. -/
theorem C5_bound_invariant (P : CDParams) (ds : SVMDataset)
    (draws : ℕ → ℕ → ℕ) (hCp : 0 < P.Cp) (hCn : 0 < P.Cn) :
    BoundInv (mkContext P ds) (initState ds) ∧
    (∀ perm st t, BoundInv (mkContext P ds) st →
      BoundInv (mkContext P ds) (coordStep (mkContext P ds) perm st t).1) ∧
    BoundInv (mkContext P ds) (cdTrain P ds draws).1 := by
  have hc : ∀ i c, ubOf (mkContext P ds) i = some c → 0 ≤ c := by
    intro i c h
    rcases ubOf_mem P ds i c h with h1 | h1 <;> rw [h1]
    · exact le_of_lt hCp
    · exact le_of_lt hCn
  have hinit : BoundInv (mkContext P ds) (initState ds) := by
    intro i
    exact ⟨le_refl _, fun c h => hc i c h⟩
  have hstep : ∀ perm st t, BoundInv (mkContext P ds) st →
      BoundInv (mkContext P ds) (coordStep (mkContext P ds) perm st t).1 := by
    intro perm st t hB
    dsimp only [coordStep]
    split
    · intro i
      dsimp only
      rcases eq_or_ne i (perm (t % (mkContext P ds).n)) with heq | hne
      · subst heq
        rw [Function.update_same]
        constructor
        · exact clipAlpha_nonneg _ _ (hc _)
        · intro c hub
          rw [hub]
          exact clipAlpha_le c _
      · rw [Function.update_noteq hne]
        exact hB i
    · exact fun i => hB i
  refine ⟨hinit, hstep, ?_⟩
  exact outerLoop_pred (mkContext P ds) draws (BoundInv (mkContext P ds))
    (fun e st t => hstep _ st t) (mkContext P ds).nEpochsEff 0
    (initState ds) hinit

/-- Witness for C5 on the concrete one-sample L1 run. -/
theorem C5_witness :
    BoundInv (mkContext pL1 dsOne) (cdTrain pL1 dsOne zeroDraws).1 :=
  (C5_bound_invariant pL1 dsOne zeroDraws
    (by exact one_pos) (by exact one_pos)).2.2

/-- Claim C6: at every point of training (after initialization, after
each coordinate-update step with its valid permuted sample index, and at
the end) the augmented weight vector equals
`Σ_i alpha[i] · y[i] · [x_i, 1]` over the original input matrix, whose
feature rows the run never changes - exact arithmetic. -/
theorem C6_weight_consistency (P : CDParams) (ds : SVMDataset)
    (draws : ℕ → ℕ → ℕ) (hn : 0 < ds.nCols) :
    WInv (mkContext P ds) ds.mat (initState ds) ∧
    (∀ e st t, WInv (mkContext P ds) ds.mat st →
      WInv (mkContext P ds) ds.mat
        (coordStep (mkContext P ds)
          (oldFromNew (mkContext P ds).n (draws e)) st t).1) ∧
    WInv (mkContext P ds) ds.mat (cdTrain P ds draws).1 := by
  have hinit : WInv (mkContext P ds) ds.mat (initState ds) := by
    constructor
    · intro r c _
      rfl
    · intro j _
      refine (Finset.sum_eq_zero ?_).symm
      intro i _
      show (0 : ℝ) * _ * _ = 0
      ring
  have hstep : ∀ e st t, WInv (mkContext P ds) ds.mat st →
      WInv (mkContext P ds) ds.mat
        (coordStep (mkContext P ds)
          (oldFromNew (mkContext P ds).n (draws e)) st t).1 :=
    fun e st t hB =>
      coordStep_winv (mkContext P ds) ds.mat _ st t
        (oldFromNew_mod_lt (draws e) hn t) hB
  refine ⟨hinit, hstep, ?_⟩
  exact outerLoop_pred (mkContext P ds) draws (WInv (mkContext P ds) ds.mat)
    hstep (mkContext P ds).nEpochsEff 0 (initState ds) hinit

/-- Witness for C6 on the concrete one-sample L1 run. -/
theorem C6_witness :
    WInv (mkContext pL1 dsOne) dsOne.mat (cdTrain pL1 dsOne zeroDraws).1 :=
  (C6_weight_consistency pL1 dsOne zeroDraws (by decide)).2.2

/-- Claim C4, counterexample: the source's shuffle draws `j = rand() % n`
over all of `[0, n)`, not over the later-or-equal positions.  With `n =
2` and the all-zero draw stream, position `1` is swapped with the
earlier position `0`; and with draws `(1, 0)` the source's result
differs from the later-or-equal (Fisher-Yates) shuffle of the same
draws. -/
theorem C4_counterexample :
    shuffleTarget 2 (fun _ => 0) 1 = 0 ∧
    ¬ 1 ≤ shuffleTarget 2 (fun _ => 0) 1 ∧
    oldFromNew 2 (fun k => 1 - k) 0 = 0 ∧
    fisherYatesShuffle 2 (fun k => 1 - k) 0 = 1 := by
  refine ⟨rfl, by decide, by decide, by decide⟩

/-- Claim C4, amended: at the start of every epoch a fresh permutation is
generated by traversing positions in increasing order and swapping
position `k` with position `draws k % n` - which ranges over all of
`[0, n)` and may precede `k`.  The result is nevertheless always a
bijection of `[0, n)` (identity outside it). -/
theorem C4_permutation (n : ℕ) (draws : ℕ → ℕ) (hn : 0 < n) :
    Set.BijOn (oldFromNew n draws) (Set.Iio n) (Set.Iio n) ∧
    (∀ x, n ≤ x → oldFromNew n draws x = x) ∧
    ∀ k, k < n → shuffleLoop n draws (k + 1) =
      swapAt (shuffleLoop n draws k) k (draws k % n) :=
  ⟨oldFromNew_bijOn draws hn, fun x hx => oldFromNew_ge draws x hx,
    fun _ _ => rfl⟩

/-- Witness for C4 at `n = 2` with the all-zero draw stream. -/
theorem C4_witness :
    Set.BijOn (oldFromNew 2 (fun _ => 0)) (Set.Iio 2) (Set.Iio 2) :=
  (C4_permutation 2 (fun _ => 0) (by norm_num)).1

/-- Claim C3, counterexample: with `maxEpochs = 2` and an explicit
`maxIterationsPerEpoch = 5` supplied on a 2-sample dataset, one epoch
runs 3 coordinate-update steps - not the supplied 5 (the supplied count
is overwritten with `n` whenever epochs are supplied), and not `n = 2`
either (the loop bound `t <= n_iter_` is inclusive). -/
theorem C3_counterexample :
    (runEpoch (mkContext pIter dsTwo) (zeroDraws 0)
      (initState dsTwo)).trace.length = 3 ∧
    (3 : ℕ) ≠ 5 ∧ (3 : ℕ) ≠ 2 := by
  refine ⟨?_, by decide, by decide⟩
  show (innerLoop _ _ _ ((mkContext pIter dsTwo).nIterEff + 1)).trace.length = 3
  rw [innerLoop_trace_length]
  decide

/-- Claim C3, amended: every epoch's inner loop executes exactly
`nIter + 1` coordinate-update steps, where `nIter` is `n` whenever
`maxEpochs > 0` was supplied (any supplied iteration count is then
ignored) and the supplied `maxIterationsPerEpoch` otherwise; step `i`
visits sample `old_from_new[i mod n]`. -/
theorem C3_iteration_count (P : CDParams) (ds : SVMDataset)
    (draws : ℕ → ℕ) (st : CDState) :
    (runEpoch (mkContext P ds) draws st).trace.length =
      (if 0 < P.nEpochs then ds.nCols else P.nIter) + 1 ∧
    ∀ i, i < (runEpoch (mkContext P ds) draws st).trace.length →
      ((runEpoch (mkContext P ds) draws st).trace.getD i (0, 0)).1 =
        oldFromNew ds.nCols draws (i % ds.nCols) := by
  constructor
  · show (innerLoop _ _ _ ((mkContext P ds).nIterEff + 1)).trace.length = _
    rw [innerLoop_trace_length]
    rfl
  · intro i hi
    have hi2 : i < (mkContext P ds).nIterEff + 1 := by
      rw [← innerLoop_trace_length (mkContext P ds)
        (oldFromNew (mkContext P ds).n draws) st
        ((mkContext P ds).nIterEff + 1)]
      exact hi
    exact innerLoop_trace_fst (mkContext P ds)
      (oldFromNew (mkContext P ds).n draws) st
      ((mkContext P ds).nIterEff + 1) i hi2

/-- Claim C7: at the end of every epoch the solver declares convergence
exactly when `pgrad_max_new - pgrad_min_new <= accuracy`, where the two
accumulators (started at minus and plus infinity) end up holding
precisely the maximum and the minimum of the projected gradients of that
epoch's coordinate-update steps. -/
theorem C7_convergence_test (P : CDParams) (ds : SVMDataset)
    (draws : ℕ → ℕ) (st : CDState) :
    (runEpoch (mkContext P ds) draws st).pmax =
      ((runEpoch (mkContext P ds) draws st).trace.map Prod.snd).max? ∧
    (runEpoch (mkContext P ds) draws st).pmin =
      ((runEpoch (mkContext P ds) draws st).trace.map Prod.snd).min? ∧
    (gapConverged (runEpoch (mkContext P ds) draws st).pmax
        (runEpoch (mkContext P ds) draws st).pmin P.accuracy ↔
      ∃ M m,
        ((runEpoch (mkContext P ds) draws st).trace.map Prod.snd).max? =
          some M ∧
        ((runEpoch (mkContext P ds) draws st).trace.map Prod.snd).min? =
          some m ∧
        M - m ≤ P.accuracy) := by
  obtain ⟨M, m, hM, hm, hle⟩ := runEpoch_gap (mkContext P ds) draws st
  have hmax : (runEpoch (mkContext P ds) draws st).pmax =
      ((runEpoch (mkContext P ds) draws st).trace.map Prod.snd).max? :=
    innerLoop_pmax (mkContext P ds) (oldFromNew (mkContext P ds).n draws) st
      ((mkContext P ds).nIterEff + 1)
  have hmin : (runEpoch (mkContext P ds) draws st).pmin =
      ((runEpoch (mkContext P ds) draws st).trace.map Prod.snd).min? :=
    innerLoop_pmin (mkContext P ds) (oldFromNew (mkContext P ds).n draws) st
      ((mkContext P ds).nIterEff + 1)
  refine ⟨hmax, hmin, ?_⟩
  rw [hM, hm]
  simp only [gapConverged]
  constructor
  · intro h
    exact ⟨M, m, by rw [← hmax, hM], by rw [← hmin, hm], h⟩
  · rintro ⟨M2, m2, hM2, hm2, hle2⟩
    rw [← hmax, hM] at hM2
    rw [← hmin, hm] at hm2
    rw [Option.some_inj] at hM2 hm2
    rw [hM2, hm2]
    exact hle2

/-- Claim C8: `Train` terminates in one of the two terminal states
(`stopping_condition` 1 = converged or 2 = epoch limit), runs at most
`maxEpochs` epochs when `maxEpochs >= 1` is supplied, and when no epoch
ever passes the gap test it stops with the epoch limit after exactly
`maxEpochs` epochs. -/
theorem C8_termination (P : CDParams) (ds : SVMDataset)
    (draws : ℕ → ℕ → ℕ) (hE : 0 < P.nEpochs) :
    ((cdTrain P ds draws).2.1 = 1 ∨ (cdTrain P ds draws).2.1 = 2) ∧
    (cdTrain P ds draws).2.2 ≤ P.nEpochs ∧
    ((∀ e st, ¬ gapConverged (runEpoch (mkContext P ds) (draws e) st).pmax
        (runEpoch (mkContext P ds) (draws e) st).pmin P.accuracy) →
      (cdTrain P ds draws).2.1 = 2 ∧
      (cdTrain P ds draws).2.2 = P.nEpochs) := by
  have hne : (mkContext P ds).nEpochsEff = P.nEpochs := if_pos hE
  have h1 := outerLoop_cond (mkContext P ds) draws
    (mkContext P ds).nEpochsEff 0 (initState ds) (by omega) (by omega)
  refine ⟨h1.1, by rw [← hne]; exact h1.2, ?_⟩
  intro hgap
  have h2 := outerLoop_noconv (mkContext P ds) draws hgap
    (mkContext P ds).nEpochsEff 0 (initState ds) (by omega) (by omega)
  exact ⟨h2.1, by rw [← hne]; exact h2.2⟩

/-- Witness for C8: `maxEpochs = 3` with the unreachable accuracy `-1`
on a one-sample dataset stops with the epoch limit after exactly 3
epochs. -/
theorem C8_witness :
    (cdTrain pEpo dsOne zeroDraws).2.1 = 2 ∧
    (cdTrain pEpo dsOne zeroDraws).2.2 = 3 := by
  have hgap : ∀ e st,
      ¬ gapConverged (runEpoch (mkContext pEpo dsOne) (zeroDraws e) st).pmax
        (runEpoch (mkContext pEpo dsOne) (zeroDraws e) st).pmin
        pEpo.accuracy := by
    intro e st
    obtain ⟨M, m, hM, hm, hle⟩ :=
      runEpoch_gap (mkContext pEpo dsOne) (zeroDraws e) st
    rw [hM, hm]
    simp only [gapConverged]
    have hacc : pEpo.accuracy = -1 := rfl
    rw [hacc]
    intro hc
    linarith
  exact (C8_termination pEpo dsOne zeroDraws (by decide)).2.2 hgap

/-- Claim C1, counterexample: `Train` writes through the aliased column
vector (`xi[n_features_] = 1.0`), so the label-row entry of a visited
column of the borrowed matrix changes: on the one-sample dataset with
label `-1`, entry `(1, 0)` reads `1`, not `-1`, after `Train`. -/
theorem C1_counterexample :
    (cdTrain pL1 dsLbl zeroDraws).1.mat 1 0 ≠ dsLbl.mat 1 0 := by
  have hfin : (cdTrain pL1 dsLbl zeroDraws).1 =
      (runEpoch (mkContext pL1 dsLbl) (zeroDraws 0) (initState dsLbl)).st := by
    show (outerLoop (mkContext pL1 dsLbl) zeroDraws
      (mkContext pL1 dsLbl).nEpochsEff 0 (initState dsLbl)).1 = _
    have hne : (mkContext pL1 dsLbl).nEpochsEff = 0 + 1 := rfl
    rw [hne, outerLoop_succ]
    by_cases hg : gapConverged
        (runEpoch (mkContext pL1 dsLbl) (zeroDraws 0) (initState dsLbl)).pmax
        (runEpoch (mkContext pL1 dsLbl) (zeroDraws 0) (initState dsLbl)).pmin
        (mkContext pL1 dsLbl).accuracy
    · rw [if_pos hg]
    · rw [if_neg hg, if_pos (by decide : (mkContext pL1 dsLbl).nEpochsEff ≤ 0 + 1)]
  have hmat : (runEpoch (mkContext pL1 dsLbl) (zeroDraws 0)
      (initState dsLbl)).st.mat 1 0 = 1 := by
    show (innerLoop (mkContext pL1 dsLbl)
      (oldFromNew (mkContext pL1 dsLbl).n (zeroDraws 0)) (initState dsLbl)
      ((mkContext pL1 dsLbl).nIterEff + 1)).st.mat 1 0 = 1
    have hit : (mkContext pL1 dsLbl).nIterEff + 1 = 1 + 1 := rfl
    rw [hit, innerLoop_st_succ, coordStep_mat]
    have hp : oldFromNew (mkContext pL1 dsLbl).n (zeroDraws 0)
        (1 % (mkContext pL1 dsLbl).n) = 0 := by decide
    rw [hp]
    unfold writeBias
    rw [if_pos ⟨rfl, rfl⟩]
  rw [hfin, hmat]
  have h2 : dsLbl.mat 1 0 = -1 := rfl
  rw [h2]
  norm_num

/-- Claim C1, amended: only the label row (row `F`) of the borrowed
matrix is written during `Train`: every feature-row entry is unchanged
by every coordinate-update step and still equals its input value after
`Train` returns, while each step sets the label-row entry of its visited
column to `1`. -/
theorem C1_frame (P : CDParams) (ds : SVMDataset) (draws : ℕ → ℕ → ℕ) :
    (∀ perm st t r c, r ≠ (mkContext P ds).F →
      (coordStep (mkContext P ds) perm st t).1.mat r c = st.mat r c) ∧
    (∀ r c, r ≠ (mkContext P ds).F →
      (cdTrain P ds draws).1.mat r c = ds.mat r c) ∧
    (∀ perm st t,
      (coordStep (mkContext P ds) perm st t).1.mat (mkContext P ds).F
        (perm (t % (mkContext P ds).n)) = 1) := by
  have hstep : ∀ (perm : ℕ → ℕ) st t r c, r ≠ (mkContext P ds).F →
      (coordStep (mkContext P ds) perm st t).1.mat r c = st.mat r c := by
    intro perm st t r c hr
    rw [coordStep_mat]
    unfold writeBias
    rw [if_neg (by tauto)]
  refine ⟨hstep, ?_, ?_⟩
  · intro r c hr
    exact outerLoop_pred (mkContext P ds) draws
      (fun st => st.mat r c = ds.mat r c)
      (fun e st t hq => (hstep _ st t r c hr).trans hq)
      (mkContext P ds).nEpochsEff 0 (initState ds) rfl
  · intro perm st t
    rw [coordStep_mat]
    unfold writeBias
    rw [if_pos ⟨rfl, rfl⟩]

/-- Claim C2 (the source is the defect): on the one-sample dataset with
feature value `4` (positive label, L1 mode so no offset), the source's
diagonal `QD[0]` is `sqrt(4) + 1 = 3`, while the spec's squared-norm
formula gives `4^2 + 1 = 17`: the per-feature contribution in the code
is `sqrt(feature)`, not `feature^2`. -/
theorem C2_diagonal_sqrt :
    qdOf pL1 dsQD 0 = 3 ∧ qdSpec pL1 dsQD 0 = 17 ∧
      qdOf pL1 dsQD 0 ≠ qdSpec pL1 dsQD 0 := by
  have hsq4 : Real.sqrt 4 = 2 := by
    rw [show (4 : ℝ) = 2 ^ 2 by norm_num,
      Real.sqrt_sq (by norm_num : (0 : ℝ) ≤ 2)]
  have hq1 : qdOf pL1 dsQD 0 = 3 := by
    norm_num [qdOf, labelOf, diagPOf, pL1, dsQD, hsq4]
  have hq2 : qdSpec pL1 dsQD 0 = 17 := by
    norm_num [qdSpec, labelOf, diagPOf, pL1, dsQD]
  refine ⟨hq1, hq2, ?_⟩
  rw [hq1, hq2]
  norm_num

/-- Claim C9: the projected gradient of every coordinate-update step is
exactly the spec's three-way branch with `ε = 1e-7` (the lower-bound
branch tested first, the upper-bound branch inert for an infinite
bound), and when `|pgrad| <= 1e-12` the step leaves both the dual
variable array and the weight vector untouched. -/
theorem C9_pgrad_update (C : CDContext) (perm : ℕ → ℕ) (st : CDState)
    (t : ℕ) :
    (coordStep C perm st t).2 =
      specPgrad
        (gradOf C ⟨writeBias C.F st.mat (perm (t % C.n)), st.alpha, st.w⟩
          (perm (t % C.n)))
        (st.alpha (perm (t % C.n))) (ubOf C (perm (t % C.n))) ∧
    (¬ PGRAD_EPS < |(coordStep C perm st t).2| →
      (coordStep C perm st t).1.alpha = st.alpha ∧
      (coordStep C perm st t).1.w = st.w) := by
  constructor
  · rw [coordStep_pg]
    have hupper : atUpper (ubOf C (perm (t % C.n)))
        (st.alpha (perm (t % C.n))) ↔
        ∃ c, ubOf C (perm (t % C.n)) = some c ∧
          c - st.alpha (perm (t % C.n)) ≤ 1 / 10 ^ 7 := by
      cases hub : ubOf C (perm (t % C.n)) with
      | none => simp [atUpper]
      | some c => simp [atUpper, CD_ALPHA_ZERO]
    unfold pgradOf specPgrad
    simp only [CD_ALPHA_ZERO]
    exact if_congr Iff.rfl rfl (if_congr hupper rfl rfl)
  · intro h
    rw [coordStep_pg] at h
    exact coordStep_noop C perm st t h

/-- Witness for C9: a concrete mid-range state (alpha strictly between
the bounds, zero gradient) where the step is a silent no-op. -/
theorem C9_witness :
    (coordStep (mkContext pL1 dsOne) (fun x => x)
      ⟨dsOne.mat, fun _ => 1 / 2, fun _ => 1 / 2⟩ 0).1.alpha =
      (fun _ => 1 / 2 : ℕ → ℝ) := by
  have h := C9_pgrad_update (mkContext pL1 dsOne) (fun x => x)
    ⟨dsOne.mat, fun _ => 1 / 2, fun _ => 1 / 2⟩ 0
  refine (h.2 ?_).1
  rw [h.1]
  have hg : gradOf (mkContext pL1 dsOne)
      ⟨writeBias (mkContext pL1 dsOne).F dsOne.mat ((fun x => x)
        (0 % (mkContext pL1 dsOne).n)), fun _ => 1 / 2, fun _ => 1 / 2⟩
      ((fun x => x) (0 % (mkContext pL1 dsOne).n)) = 0 := by
    unfold gradOf writeBias
    have hF : (mkContext pL1 dsOne).F = 1 := rfl
    have hy : (mkContext pL1 dsOne).y = labelOf dsOne := rfl
    have hdg : (mkContext pL1 dsOne).diagP = diagPOf pL1 := rfl
    have hdn : (mkContext pL1 dsOne).diagN = diagNOf pL1 := rfl
    rw [hF, hy, hdg, hdn]
    norm_num [labelOf, diagPOf, diagNOf, dsOne, pL1, Finset.sum_range_succ]
  rw [hg]
  have hub : ubOf (mkContext pL1 dsOne) ((fun x => x)
      (0 % (mkContext pL1 dsOne).n)) = some 1 := by
    have : ubOf (mkContext pL1 dsOne) 0 = some pL1.Cp := by
      unfold ubOf
      have hy : (mkContext pL1 dsOne).y 0 = 1 := by
        show labelOf dsOne 0 = 1
        norm_num [labelOf, dsOne]
      rw [hy, if_pos (by norm_num : (0 : ℤ) < 1)]
      show ubPOf pL1 = some pL1.Cp
      unfold ubPOf
      rw [if_pos (show pL1.regularization = 1 from rfl)]
    exact this
  rw [hub]
  unfold specPgrad
  rw [if_neg (by norm_num), if_neg (by push_neg; intro c hc; rw [Option.some_inj] at hc; rw [← hc]; norm_num)]
  rw [PGRAD_EPS]
  norm_num

end OptCD

namespace DataInfo

theorem mvalEq_some_iff (v : MVal) (k : ℕ) :
    mvalEq v (some k) = true ↔ v = some k := by
  cases v with
  | none => simp [mvalEq]
  | some a => simp [mvalEq]

theorem count_zero_findnone (p : String × MVal → Bool)
    (l : List (String × MVal)) (h : (l.filter p).length = 0) :
    l.find? p = none := by
  rw [List.length_eq_zero] at h
  rw [List.find?_eq_none]
  exact List.filter_eq_nil_iff.mp h

theorem rightCount_zero (l : List (String × MVal)) (nm : ℕ)
    (h : ∀ p ∈ l, ∀ k, p.2 = some k → k < nm) :
    rightCount (some nm) l = 0 := by
  unfold rightCount
  rw [List.length_eq_zero, List.filter_eq_nil_iff]
  intro p hp hc
  rw [mvalEq_some_iff] at hc
  exact absurd (h p hp nm hc) (lt_irrefl nm)

theorem leftCount_append (s : String) (l1 l2 : List (String × MVal)) :
    leftCount s (l1 ++ l2) = leftCount s l1 + leftCount s l2 := by
  unfold leftCount
  rw [List.filter_append, List.length_append]

theorem leftAt_append_new (l : List (String × MVal)) (s : String) (v : MVal)
    (h : leftCount s l = 0) : leftAt s (l ++ [(s, v)]) = some v := by
  unfold leftAt
  rw [List.find?_append, count_zero_findnone _ _ h]
  simp

theorem rightAt_append_new (l : List (String × MVal)) (s : String) (k : ℕ)
    (h : rightCount (some k) l = 0) :
    rightAt (some k) (l ++ [(s, some k)]) = some s := by
  unfold rightAt
  rw [List.find?_append, count_zero_findnone _ _ h]
  simp [mvalEq]

theorem find?_right_unique (k : ℕ) :
    ∀ l : List (String × MVal), (l.filterMap Prod.snd).Nodup →
      ∀ p0 ∈ l, p0.2 = some k →
        l.find? (fun p => mvalEq p.2 (some k)) = some p0
  | [], _, p0, hp0, _ => absurd hp0 (List.not_mem_nil p0)
  | q :: l2, hnd, p0, hp0, hk => by
    by_cases hq : mvalEq q.2 (some k) = true
    · rw [List.find?_cons_of_pos l2 hq]
      rw [mvalEq_some_iff] at hq
      rcases List.mem_cons.mp hp0 with he | hmem
      · rw [he]
      · exfalso
        have h1 : (q :: l2).filterMap Prod.snd = k :: l2.filterMap Prod.snd :=
          List.filterMap_cons_some hq
        rw [h1] at hnd
        exact (List.nodup_cons.mp hnd).1
          (List.mem_filterMap.mpr ⟨p0, hmem, hk⟩)
    · rw [List.find?_cons_of_neg l2 hq]
      rcases List.mem_cons.mp hp0 with he | hmem
      · exfalso
        apply hq
        rw [← he, hk, mvalEq]
        simp
      · have hnd2 : (l2.filterMap Prod.snd).Nodup := by
          cases hq2 : q.2 with
          | none => rwa [List.filterMap_cons_none hq2] at hnd
          | some v =>
            rw [List.filterMap_cons_some hq2] at hnd
            exact (List.nodup_cons.mp hnd).2
        exact find?_right_unique k l2 hnd2 p0 hmem hk

/-- Claim C10: for a nonempty string `s` and any well-formed
`DatasetInfo` state, the value `v` returned by `MapString(s, d)` is a
numeric id that both `UnmapValue(s, d)` and `UnmapString(v, d)` then
return without throwing: the mapping round-trips. -/
theorem C10_roundtrip (info : DatasetInfo) (s : String) (d : ℕ)
    (hs : s ≠ "") (hwf : WFdim (info.maps d)) :
    ∃ k, (MapString info s d).1 = some k ∧
      UnmapValue (MapString info s d).2 s d = Except.ok (some k) ∧
      UnmapString (MapString info s d).2 k d = Except.ok s := by
  obtain ⟨hbound, hsm, hndl, hndr⟩ := hwf
  unfold MapString
  rw [if_neg hs]
  by_cases hnew : leftCount s (info.maps d).pairs = 0
  · rw [if_pos hnew]
    dsimp only
    have hins : bimapInsert s (some (info.maps d).numMappings)
        (info.maps d).pairs =
        (info.maps d).pairs ++ [(s, some (info.maps d).numMappings)] := by
      unfold bimapInsert
      rw [if_pos ⟨hnew, rightCount_zero _ _ hbound⟩]
    refine ⟨(info.maps d).numMappings, rfl, ?_, ?_⟩
    · unfold UnmapValue
      dsimp only
      rw [if_pos rfl, hins]
      have hcount : leftCount s
          ((info.maps d).pairs ++ [(s, some (info.maps d).numMappings)]) =
          1 := by
        rw [leftCount_append, hnew]
        unfold leftCount
        simp
      rw [if_neg (by rw [hcount]; exact one_ne_zero),
        leftAt_append_new _ _ _ hnew]
      rfl
    · unfold UnmapString
      dsimp only
      rw [if_pos rfl, hins,
        rightAt_append_new _ _ _ (rightCount_zero _ _ hbound)]
  · rw [if_neg hnew]
    dsimp only
    have hfil : (info.maps d).pairs.filter (fun p => p.1 == s) ≠ [] := by
      intro hemp
      apply hnew
      unfold leftCount
      rw [hemp]
      rfl
    obtain ⟨q, hq⟩ := List.exists_mem_of_ne_nil _ hfil
    have hq2 := List.mem_filter.mp hq
    have hfind : ((info.maps d).pairs.find? (fun p => p.1 == s)).isSome :=
      List.find?_isSome.mpr ⟨q, hq2.1, hq2.2⟩
    obtain ⟨p0, hp0⟩ := Option.isSome_iff_exists.mp hfind
    have hmem := List.mem_of_find?_eq_some hp0
    have hps : p0.1 = s := by
      have := List.find?_some hp0
      rwa [beq_iff_eq] at this
    obtain ⟨k, hk⟩ := Option.isSome_iff_exists.mp
      (hsm p0 hmem (by rw [hps]; exact hs))
    have hleft : leftAt s (info.maps d).pairs = some (some k) := by
      unfold leftAt
      rw [hp0, ← hk]
      rfl
    refine ⟨k, ?_, ?_, ?_⟩
    · rw [hleft]
      rfl
    · unfold UnmapValue
      rw [if_neg hnew, hleft]
      rfl
    · unfold UnmapString
      unfold rightAt
      rw [find?_right_unique k (info.maps d).pairs hndr p0 hmem hk]
      simp [hps]

/-- Witness for C10: mapping the string `a` in the empty state yields
value 0, which unmaps back to `a`. -/
theorem C10_witness :
    ∃ k, (MapString OptCD.infoEmpty "a" 0).1 = some k ∧
      UnmapValue (MapString OptCD.infoEmpty "a" 0).2 "a" 0 =
        Except.ok (some k) ∧
      UnmapString (MapString OptCD.infoEmpty "a" 0).2 k 0 =
        Except.ok "a" :=
  C10_roundtrip OptCD.infoEmpty "a" 0 (by decide) (by decide)

end DataInfo
